import Mathlib

/-!
A shallow embedding of the ekglue xDS manager core (package `xds`): the
versioned resource store (`Manager.Add`, `Manager.Replace`, `Manager.Delete`,
`Manager.List`, `Manager.snapshot`), the discovery-response builder
(`randomString`, `Manager.BuildDiscoveryResponse`) and the per-client stream
driver (`Manager.Stream`: its request handling, notification handling,
transaction bookkeeping and cleanup tick).

Modelling choices, each noted again at the definition it concerns:
  * A Go `map[string]T` is an association list with unique keys; `lookupKey`,
    `insertKey` (overwrite-or-append) and `eraseKey` are the map operations.
  * A resource (a protobuf message implementing `Validate`) is a record
    carrying the results of its optional `GetName`/`GetClusterName` accessors,
    of `Validate`, and of `ptypes.MarshalAny` (an opaque payload string,
    `none` when marshalling fails).
  * A Go `panic` is an explicit result constructor, never a Lean error.
  * `crypto/rand.Read(b)` follows `io.ReadFull`: it writes some prefix of the
    buffer and reports `(n, err)` with `n = len(b)` iff `err == nil`; the
    bytes written and the error flag are the `RandRead` input.
  * Concurrency (locks, channel blocking, context deadlines) is outside the
    embedding: mutations and stream steps are atomic functions, and the
    fan-out of `Manager.notify` is modelled by the published update
    (`Option (List String)`: the changed-name set, `none` when no
    notification is sent).  Wall-clock time is a `Nat` of seconds.
-/

namespace Ekglue

/-- Result of `resourceName` (xds.go): the name, or a Go panic when the
resource implements neither `GetName` nor `GetClusterName`. -/
inductive NameResult where
  | ok (s : String)
  | panics
  deriving DecidableEq, Repr

/-- An xDS resource as the manager observes it: the optional accessors
(`none` = the interface assertion fails; `some s` = the accessor returns
`s`, possibly empty), the result of `Validate` (`none` = valid) and the
result of `ptypes.MarshalAny` (`none` = marshal error). -/
structure Resource where
  getName : Option String
  getClusterName : Option String
  validateErr : Option String
  marshal : Option String
  deriving DecidableEq, Repr

/-- `resourceName` (xds.go lines 67-75): try the `GetName` interface, then
the `GetClusterName` interface, and panic when neither is implemented.  The
returned string is not checked for emptiness. -/
def resourceName (r : Resource) : NameResult :=
  match r.getName with
  | some n => .ok n
  | none =>
    match r.getClusterName with
    | some n => .ok n
    | none => .panics

/-- The name of a resource, defaulting to `""` on the panic case; used only
where a proof obligation excludes the panic. -/
def nameStr (r : Resource) : String :=
  match resourceName r with
  | .ok s => s
  | .panics => ""

/-- Go map lookup on the association-list model. -/
def lookupKey {α : Type} : List (String × α) → String → Option α
  | [], _ => none
  | (k, v) :: rest, key => if k = key then some v else lookupKey rest key

/-- Go map assignment `m[k] = v`: overwrite the existing entry or append. -/
def insertKey {α : Type} : List (String × α) → String → α → List (String × α)
  | [], key, v => [(key, v)]
  | (k, w) :: rest, key, v =>
    if k = key then (k, v) :: rest else (k, w) :: insertKey rest key v

/-- Go `delete(m, k)`: drop the entry with key `k` (the first one; built
states keep keys unique). -/
def eraseKey {α : Type} : List (String × α) → String → List (String × α)
  | [], _ => []
  | (k, w) :: rest, key => if k = key then rest else (k, w) :: eraseKey rest key

/-- The manager's state: the public configuration fields, the version
counter, the resource map and the registered sessions (opaque ids; no
manager mutation touches them). -/
structure ManagerState where
  versionPfx : String
  typeUrl : String
  version : Nat
  resources : List (String × Resource)
  sessions : List Nat
  deriving DecidableEq, Repr

/-- `Manager.versionString` (xds.go lines 129-131):
`fmt.Sprintf("%s%d", m.VersionPrefix, m.version)`. -/
def versionString (st : ManagerState) : String :=
  st.versionPfx ++ toString st.version

/-- A manager mutation's observable outcome: the state afterwards and the
update published to the sessions (`some` the changed-name set, as the list
of distinct changed names; `none` when `notify` sends nothing). -/
structure MutationOutcome where
  state : ManagerState
  published : Option (List String)
  deriving DecidableEq, Repr

/-- `Manager.notify` (xds.go lines 179-211): with fewer than one changed
name do nothing; otherwise increment the version and publish the update
carrying the set of changed names (`update.resources` is a Go set: the
distinct names).  Channel fan-out and the producer-context deadline are
outside the embedding. -/
def notify (st : ManagerState) (changed : List String) : MutationOutcome :=
  if changed.length < 1 then ⟨st, none⟩
  else ⟨{ st with version := st.version + 1 }, some changed.dedup⟩

/-- Result of a mutation that can fail: `error` carries the manager state at
the early return (the Go method returns with `m.resources` as mutated so
far) and the failing resource's name and validation message; `panics`
carries the state at the panic. -/
inductive MutResult where
  | ok (out : MutationOutcome)
  | error (st : ManagerState) (name msg : String)
  | panics (st : ManagerState)
  deriving DecidableEq, Repr

/-- The loop of `Manager.Add` (xds.go lines 214-234): per resource, take the
name (panicking when unnameable), validate — returning the error at once,
with the entries stored so far left in place — and otherwise store the
entry and record the name; finally `notify` the accumulated names. -/
def addLoop (st : ManagerState) : List Resource → List String → MutResult
  | [], changed => .ok (notify st changed)
  | r :: rest, changed =>
    match resourceName r with
    | .panics => .panics st
    | .ok n =>
      match r.validateErr with
      | some msg => .error st n msg
      | none =>
        addLoop { st with resources := insertKey st.resources n r } rest (changed ++ [n])

/-- `Manager.Add` (xds.go lines 214-234). -/
def Madd (st : ManagerState) (rs : List Resource) : MutResult :=
  addLoop st rs []

/-- The validation pass of `Manager.Replace` (xds.go lines 239-243), run
before any mutation: the first invalid resource aborts with its name and
message (naming it panics when it is unnameable). -/
inductive ValResult where
  | ok
  | error (name msg : String)
  | panics
  deriving DecidableEq, Repr

/-- First failing validation of the batch, as `Manager.Replace` computes it. -/
def validateAll : List Resource → ValResult
  | [] => .ok
  | r :: rest =>
    match r.validateErr with
    | some msg =>
      match resourceName r with
      | .ok n => .error n msg
      | .panics => .panics
    | none => validateAll rest

/-- The swap loop of `Manager.Replace` (xds.go lines 246-263): `old` is the
previous map, `acc` the new map being built; per resource, delete its name
from `old` when present, record the name, and store the entry in the new
map; afterwards every name left in `old` is recorded as deleted. -/
def replaceLoop (st : ManagerState) :
    List (String × Resource) → List (String × Resource) → List Resource →
    List String → MutResult
  | old, acc, [], changed =>
    .ok (notify { st with resources := acc } (changed ++ old.map Prod.fst))
  | old, acc, r :: rest, changed =>
    match resourceName r with
    | .panics => .panics { st with resources := acc }
    | .ok n =>
      let oldNext := if (lookupKey old n).isSome then eraseKey old n else old
      replaceLoop st oldNext (insertKey acc n r) rest (changed ++ [n])

/-- `Manager.Replace` (xds.go lines 238-266): validate every input first,
aborting with the store untouched on the first failure, then swap the store
to the new set and notify with every added, updated or removed name. -/
def Mreplace (st : ManagerState) (rs : List Resource) : MutResult :=
  match validateAll rs with
  | .error n msg => .error st n msg
  | .panics => .panics st
  | .ok => replaceLoop st st.resources [] rs []

/-- `Manager.Delete` (xds.go lines 269-277): when the name is present,
remove it and notify with just that name; otherwise do nothing. -/
def Mdelete (st : ManagerState) (n : String) : MutationOutcome :=
  if (lookupKey st.resources n).isSome then
    notify { st with resources := eraseKey st.resources n } [n]
  else ⟨st, none⟩

/-- `Manager.List` (xds.go lines 292-303): the stored resources sorted by
name ascending.  The Go comparator calls `resourceName`, so it panics
(modelled `none`) when a stored resource is unnameable; `sort.Slice` with a
strict-less comparator is modelled by `insertionSort` on the corresponding
non-strict order. -/
def Mlist (st : ManagerState) : Option (List Resource) :=
  if st.resources.all (fun p =>
      match resourceName p.2 with
      | .ok _ => true
      | .panics => false) then
    some (List.insertionSort (fun a b => nameStr a ≤ nameStr b)
      (st.resources.map Prod.snd))
  else none

/-- Result of `Manager.snapshot`: the marshalled payloads, the names kept
(in the same order), and the version string; or the marshal error, carrying
the name of the resource that failed to marshal. -/
inductive SnapResult where
  | ok (anys names : List String) (version : String)
  | error (name : String)
  deriving DecidableEq, Repr

/-- The loop of `Manager.snapshotAll` (xds.go lines 134-146): marshal every
stored resource in map-iteration order (the list order of the model),
stopping at the first marshal error. -/
def marshalEntries : List (String × Resource) → Except String (List String × List String)
  | [] => .ok ([], [])
  | (n, r) :: rest =>
    match r.marshal with
    | none => .error n
    | some a =>
      match marshalEntries rest with
      | .error e => .error e
      | .ok (anys, names) => .ok (a :: anys, n :: names)

/-- The loop of `Manager.snapshot` for a non-empty `want` (xds.go lines
155-172): walk `want` in order, silently skipping names that are not in the
store (a debug log in the source), marshalling the rest. -/
def snapshotWantLoop (st : ManagerState) : List String → Except String (List String × List String)
  | [] => .ok ([], [])
  | name :: rest =>
    match lookupKey st.resources name with
    | none => snapshotWantLoop st rest
    | some r =>
      match r.marshal with
      | none => .error name
      | some a =>
        match snapshotWantLoop st rest with
        | .error e => .error e
        | .ok (anys, names) => .ok (a :: anys, name :: names)

/-- `Manager.snapshot` (xds.go lines 149-176): with `want` empty take all
resources, otherwise the present subset of `want` in request order. -/
def Msnapshot (st : ManagerState) (want : List String) : SnapResult :=
  match (if want.length = 0 then marshalEntries st.resources else snapshotWantLoop st want) with
  | .error n => .error n
  | .ok (anys, names) => .ok anys names (versionString st)

/-- One call of `crypto/rand.Read` into the 8-byte buffer, under the
`io.ReadFull` contract: `bytes` are the bytes actually written into the
buffer's prefix and `err` the error flag (`err = false` guarantees at least
a full read). -/
structure RandRead where
  bytes : List Nat
  err : Bool
  deriving DecidableEq, Repr

/-- `randomString` (xds.go lines 350-358) at the byte level: the buffer
starts as eight `'x'` bytes (120), `rand.Read` overwrites the prefix it
managed to write, and only when it reports a full, error-free read is every
byte mapped into a lowercase letter by `b % 26 + 'a'`. -/
def randomBytes (rr : RandRead) : List Nat :=
  let hash := rr.bytes.take 8 ++ List.replicate (8 - min rr.bytes.length 8) 120
  if 8 ≤ rr.bytes.length ∧ rr.err = false then
    hash.map (fun b => b % 26 + 97)
  else hash

/-- A Go string from its bytes (byte values below 256 are valid `Char`s). -/
def bytesToString (bs : List Nat) : String :=
  String.mk (bs.map Char.ofNat)

/-- `randomString` as the string the caller receives. -/
def randomString (rr : RandRead) : String :=
  bytesToString (randomBytes rr)

/-- An `envoy_api_v2.DiscoveryResponse` as the manager fills it (xds.go
lines 368-373); resources are the marshalled payloads. -/
structure DiscoveryResponse where
  versionInfo : String
  typeUrl : String
  resources : List String
  nonce : String
  deriving DecidableEq, Repr

/-- Result of `Manager.BuildDiscoveryResponse`: the response together with
the names it carries, or the snapshot's marshal error.  The final
`res.Validate()` of the source cannot fail — the generated validator for
`v2.DiscoveryResponse` has no constraints — so no error path exists for
it. -/
inductive BuildResult where
  | ok (res : DiscoveryResponse) (names : List String)
  | error (name : String)
  deriving DecidableEq, Repr

/-- `Manager.BuildDiscoveryResponse` (xds.go lines 360-378): snapshot the
subscribed names and wrap them with the version string and the nonce
`nonce-<version>-<randomString()>`.  The random read is an input. -/
def buildDiscoveryResponse (st : ManagerState) (subscribed : List String)
    (rr : RandRead) : BuildResult :=
  match Msnapshot st subscribed with
  | .error n => .error n
  | .ok anys names version =>
    .ok { versionInfo := version, typeUrl := st.typeUrl, resources := anys,
          nonce := "nonce-" ++ version ++ "-" ++ randomString rr } names

/-- The fields of an `envoy_api_v2.DiscoveryRequest` the driver reads:
`node.id`, `resource_names`, `type_url`, `response_nonce`, `error_detail`
(`some` = a NACK's status) and `version_info`. -/
structure DiscoveryRequest where
  nodeId : String
  resourceNames : List String
  typeUrl : String
  responseNonce : String
  errorDetail : Option String
  versionInfo : String
  deriving DecidableEq, Repr

/-- An in-flight transaction (xds.go lines 305-310), minus the tracing
span: start time (seconds), nonce and version sent. -/
structure Tx where
  start : Nat
  nonce : String
  version : String
  deriving DecidableEq, Repr

/-- The per-stream mutable state of `Manager.Stream` (xds.go lines
405-409, 392): the latched node id (`""` before the first request carrying
one), the latched subscription, and the in-flight transactions keyed by
nonce. -/
structure StreamState where
  node : String
  resources : List String
  txs : List (String × Tx)
  deriving DecidableEq, Repr

/-- The stream state at entry to the driver loop. -/
def initStreamState : StreamState :=
  { node := "", resources := [], txs := [] }

/-- The `Acknowledgment` event delivered to `Manager.OnAck` (xds.go lines
87-91). -/
structure Acknowledgment where
  node : String
  version : String
  ack : Bool
  deriving DecidableEq, Repr

/-- The environment of one push attempt: the random read consumed by
`randomString`, whether the response channel accepted the response within
the 5-second deadline, and the wall-clock second at which the transaction
would start. -/
structure PushEnv where
  rr : RandRead
  sendOk : Bool
  now : Nat
  deriving DecidableEq, Repr

/-- `sendUpdate` (xds.go lines 412-447): build a response for the latched
subscription; on a build error log and return; otherwise try to enqueue it
— on success record the transaction under the response's nonce (a map
assignment: an existing entry with an equal nonce is silently overwritten),
on the 5-second timeout record nothing. -/
def sendUpdate (m : ManagerState) (s : StreamState) (env : PushEnv) :
    StreamState × Option DiscoveryResponse :=
  match buildDiscoveryResponse m s.resources env.rr with
  | .error _ => (s, none)
  | .ok res _ =>
    if env.sendOk then
      let t : Tx := { start := env.now, nonce := res.nonce, version := res.versionInfo }
      ({ s with txs := insertKey s.txs res.nonce t }, some res)
    else (s, none)

/-- `handleTx` (xds.go lines 450-481): a request whose nonce matched a live
transaction is an acknowledgement — a NACK when `error_detail` is set, an
ACK otherwise; fire the observer event and retire the transaction. -/
def handleTx (s : StreamState) (t : Tx) (req : DiscoveryRequest) :
    StreamState × Acknowledgment :=
  ({ s with txs := eraseKey s.txs t.nonce },
   { node := s.node, version := req.versionInfo, ack := req.errorDetail.isNone })

/-- Outcome of one driver-loop iteration: continue with the new state (and
the response sent and observer event fired, when any), or terminate the
stream with the gRPC status the source returns. -/
inductive StepResult where
  | cont (s : StreamState) (sent : Option DiscoveryResponse)
      (ackEvent : Option Acknowledgment)
  | failedPrecondition
  | invalidArgument
  deriving DecidableEq, Repr

/-- The `req, ok := <-reqCh` arm of `Manager.Stream` (xds.go lines
501-537): latch node id and subscription while `node` is still empty; fail
the stream with `FailedPrecondition` when `cmp.Diff` of the latched and the
requested resource lists is non-empty (an order-sensitive list comparison);
fail with `InvalidArgument` on a type-URL mismatch; treat a request whose
nonce matches a live transaction as an acknowledgement; otherwise push the
current snapshot. -/
def handleRequest (m : ManagerState) (s : StreamState) (req : DiscoveryRequest)
    (env : PushEnv) : StepResult :=
  let newResources := req.resourceNames
  let s1 := if s.node = "" then { s with node := req.nodeId, resources := newResources } else s
  if s1.resources = newResources then
    if req.typeUrl = m.typeUrl then
      match lookupKey s1.txs req.responseNonce with
      | some t => .cont (handleTx s1 t req).1 none (some (handleTx s1 t req).2)
      | none => .cont (sendUpdate m s1 env).1 (sendUpdate m s1 env).2 none
    else .invalidArgument
  else .failedPrecondition

/-- The `u := <-rCh` arm of `Manager.Stream` (xds.go lines 538-548): push
when the subscription is empty (wildcard) or intersects the update's
changed-name set. -/
def handleNotification (m : ManagerState) (s : StreamState) (changed : List String)
    (env : PushEnv) : StreamState × Option DiscoveryResponse :=
  let send := s.resources.any (fun name => changed.contains name)
  if s.resources.length = 0 || send then sendUpdate m s env else (s, none)

/-- The cleanup-tick arm of `Manager.Stream` (xds.go lines 492-500): drop
every transaction older than a minute. -/
def handleCleanup (s : StreamState) (now : Nat) : StreamState :=
  { s with txs := s.txs.filter (fun p => !(60 < now - p.2.start)) }

/-- One driver-loop event: an inbound request, a change notification, or a
cleanup tick.  Each carries the environment its handling consumes. -/
inductive StreamEvent where
  | request (req : DiscoveryRequest) (env : PushEnv)
  | notification (changed : List String) (env : PushEnv)
  | cleanup (now : Nat)
  deriving DecidableEq, Repr

/-- One iteration of the driver loop against the manager state current at
that moment. -/
def streamStep (m : ManagerState) (s : StreamState) : StreamEvent → StepResult
  | .request req env => handleRequest m s req env
  | .notification changed env =>
    .cont (handleNotification m s changed env).1 (handleNotification m s changed env).2 none
  | .cleanup now => .cont (handleCleanup s now) none none

/-- A finished run of the driver loop over a schedule of events (each with
the manager state current when it fires). -/
inductive RunResult where
  | ok (s : StreamState)
  | failedPrecondition
  | invalidArgument
  deriving DecidableEq, Repr

/-- Run the driver loop over a schedule of events. -/
def runStream (s : StreamState) : List (ManagerState × StreamEvent) → RunResult
  | [] => .ok s
  | (m, e) :: rest =>
    match streamStep m s e with
    | .cont s2 _ _ => runStream s2 rest
    | .failedPrecondition => .failedPrecondition
    | .invalidArgument => .invalidArgument

/-- The node id a driver-loop event carries (`""` for non-request events). -/
def eventNode : StreamEvent → String
  | .request req _ => req.nodeId
  | .notification _ _ => ""
  | .cleanup _ => ""

/-! ### Specification-side definitions

Characterizations used in theorem statements: the manager state after
storing a prefix of an `Add` batch, and a map after erasing a list of
keys. -/

/-- The manager state after the storing steps of `Manager.Add` for each
resource of `rs`, in order (no version bump, no notification). -/
def applyAdds (st : ManagerState) : List Resource → ManagerState
  | [] => st
  | r :: rest => applyAdds { st with resources := insertKey st.resources (nameStr r) r } rest

/-- Erase each key of `names` from the map, in order. -/
def eraseKeys (m : List (String × Resource)) : List String → List (String × Resource)
  | [] => m
  | n :: rest => eraseKeys (eraseKey m n) rest

/-! ### Concrete fixtures for counterexamples and witnesses -/

/-- A valid resource named `a`. -/
def rA : Resource :=
  { getName := some "a", getClusterName := none, validateErr := none, marshal := some "pa" }

/-- A valid resource named `b`. -/
def rB : Resource :=
  { getName := some "b", getClusterName := none, validateErr := none, marshal := some "pb" }

/-- An invalid resource named `b`. -/
def rBad : Resource :=
  { getName := some "b", getClusterName := none, validateErr := some "invalid", marshal := some "pb" }

/-- A fresh manager for type URL `T` with version-prefix `v`. -/
def st0 : ManagerState :=
  { versionPfx := "v", typeUrl := "T", version := 0, resources := [], sessions := [] }

/-- A manager holding one resource at version 3 with one session. -/
def stW : ManagerState :=
  { versionPfx := "v", typeUrl := "T", version := 3, resources := [("a", rA)], sessions := [7] }

/-- A push environment whose random read fails having written nothing and
whose response send succeeds at time 0. -/
def envFail : PushEnv :=
  { rr := { bytes := [], err := true }, sendOk := true, now := 0 }

/-- An initial discovery request: node `n1`, wildcard subscription, empty
nonce. -/
def reqInit : DiscoveryRequest :=
  { nodeId := "n1", resourceNames := [], typeUrl := "T", responseNonce := "",
    errorDetail := none, versionInfo := "" }

/-- A follow-up request carrying a nonce no live transaction holds. -/
def reqUnknown : DiscoveryRequest := { reqInit with responseNonce := "zz" }

/-- The nonce both pushes of the C4 trace produce: version `v0`, random
suffix `xxxxxxxx` (failed random read). -/
def c4nonce : String := "nonce-v0-xxxxxxxx"

/-- The transaction recorded by the first push of the C4 trace. -/
def c4tx : Tx := { start := 0, nonce := c4nonce, version := "v0" }

/-- The stream state after the first push of the C4 trace: one live
transaction under `c4nonce`. -/
def c4s1 : StreamState := { node := "n1", resources := [], txs := [(c4nonce, c4tx)] }

/-- The response both pushes of the C4 trace emit. -/
def c4res : DiscoveryResponse :=
  { versionInfo := "v0", typeUrl := "T", resources := [], nonce := c4nonce }

/-- A stream latched to node `n1` subscribed to `[a, b]`. -/
def sSub : StreamState := { node := "n1", resources := ["a", "b"], txs := [] }

/-- A request whose resource names are a permutation of `sSub`'s latched
subscription. -/
def reqPerm : DiscoveryRequest :=
  { nodeId := "n1", resourceNames := ["b", "a"], typeUrl := "T", responseNonce := "",
    errorDetail := none, versionInfo := "" }

/-- A request with an empty node id subscribing to `[a]`. -/
def reqE1 : DiscoveryRequest :=
  { nodeId := "", resourceNames := ["a"], typeUrl := "T", responseNonce := "",
    errorDetail := none, versionInfo := "" }

/-- A request with an empty node id subscribing to `[b, c]`. -/
def reqE2 : DiscoveryRequest :=
  { nodeId := "", resourceNames := ["b", "c"], typeUrl := "T", responseNonce := "",
    errorDetail := none, versionInfo := "" }

/-- A schedule of two anonymous requests whose subscription sets differ. -/
def c10evs : List (ManagerState × StreamEvent) :=
  [(st0, .request reqE1 envFail), (st0, .request reqE2 envFail)]

/-! ### Association-map lemmas -/

theorem lookupKey_cons_self {α : Type} (k : String) (v : α) (rest : List (String × α)) :
    lookupKey ((k, v) :: rest) k = some v := by
  simp [lookupKey]

theorem lookupKey_cons_ne {α : Type} {k1 k : String} (h : k1 ≠ k) (v : α)
    (rest : List (String × α)) : lookupKey ((k1, v) :: rest) k = lookupKey rest k := by
  simp [lookupKey, h]

theorem eraseKey_cons_self {α : Type} (k : String) (v : α) (rest : List (String × α)) :
    eraseKey ((k, v) :: rest) k = rest := by
  simp [eraseKey]

theorem eraseKey_cons_ne {α : Type} {k1 k : String} (h : k1 ≠ k) (v : α)
    (rest : List (String × α)) :
    eraseKey ((k1, v) :: rest) k = (k1, v) :: eraseKey rest k := by
  simp [eraseKey, h]

theorem insertKey_cons_self {α : Type} (k : String) (w v : α) (rest : List (String × α)) :
    insertKey ((k, w) :: rest) k v = (k, v) :: rest := by
  simp [insertKey]

theorem insertKey_cons_ne {α : Type} {k1 k : String} (h : k1 ≠ k) (w v : α)
    (rest : List (String × α)) :
    insertKey ((k1, w) :: rest) k v = (k1, w) :: insertKey rest k v := by
  simp [insertKey, h]

theorem lookupKey_mem {α : Type} {m : List (String × α)} {k : String} {v : α}
    (h : lookupKey m k = some v) : (k, v) ∈ m := by
  induction m with
  | nil => exact absurd h (by simp [lookupKey])
  | cons p rest ih =>
    obtain ⟨k1, w⟩ := p
    by_cases hk : k1 = k
    · subst hk
      rw [lookupKey_cons_self] at h
      cases h
      exact List.mem_cons_self _ _
    · rw [lookupKey_cons_ne hk] at h
      exact List.mem_cons_of_mem _ (ih h)

theorem lookupKey_eq_none_of_not_mem_keys {α : Type} {m : List (String × α)} {k : String}
    (h : k ∉ m.map Prod.fst) : lookupKey m k = none := by
  induction m with
  | nil => rfl
  | cons p rest ih =>
    obtain ⟨k1, w⟩ := p
    simp only [List.map_cons, List.mem_cons, not_or] at h
    simp only [lookupKey]
    rw [if_neg (fun hh => h.1 hh.symm)]
    exact ih h.2

theorem eraseKey_sublist {α : Type} (m : List (String × α)) (k : String) :
    (eraseKey m k).Sublist m := by
  induction m with
  | nil => simp [eraseKey]
  | cons p rest ih =>
    obtain ⟨k1, w⟩ := p
    by_cases hk : k1 = k
    · simp [eraseKey, hk]
    · simpa [eraseKey, hk] using ih.cons₂ (k1, w)

theorem keys_eraseKey_nodup {α : Type} {m : List (String × α)} {k : String}
    (h : (m.map Prod.fst).Nodup) : ((eraseKey m k).map Prod.fst).Nodup :=
  h.sublist ((eraseKey_sublist m k).map Prod.fst)

theorem eraseKey_of_lookup_none {α : Type} {m : List (String × α)} {k : String}
    (h : lookupKey m k = none) : eraseKey m k = m := by
  induction m with
  | nil => rfl
  | cons p rest ih =>
    obtain ⟨k1, w⟩ := p
    by_cases hk : k1 = k
    · subst hk
      rw [lookupKey_cons_self] at h
      cases h
    · rw [lookupKey_cons_ne hk] at h
      rw [eraseKey_cons_ne hk, ih h]

theorem lookupKey_eraseKey_self {α : Type} {m : List (String × α)} {k : String}
    (h : (m.map Prod.fst).Nodup) : lookupKey (eraseKey m k) k = none := by
  induction m with
  | nil => rfl
  | cons p rest ih =>
    obtain ⟨k1, w⟩ := p
    simp only [List.map_cons, List.nodup_cons] at h
    by_cases hk : k1 = k
    · subst hk
      rw [eraseKey_cons_self]
      exact lookupKey_eq_none_of_not_mem_keys h.1
    · rw [eraseKey_cons_ne hk, lookupKey_cons_ne hk]
      exact ih h.2

theorem lookupKey_eraseKey_ne {α : Type} {m : List (String × α)} {k k2 : String}
    (h : k2 ≠ k) : lookupKey (eraseKey m k) k2 = lookupKey m k2 := by
  induction m with
  | nil => rfl
  | cons p rest ih =>
    obtain ⟨k1, w⟩ := p
    by_cases hk : k1 = k
    · subst hk
      rw [eraseKey_cons_self, lookupKey_cons_ne (fun hh : k1 = k2 => h hh.symm)]
    · by_cases hk2 : k1 = k2
      · subst hk2
        rw [eraseKey_cons_ne hk, lookupKey_cons_self, lookupKey_cons_self]
      · rw [eraseKey_cons_ne hk, lookupKey_cons_ne hk2, lookupKey_cons_ne hk2]
        exact ih

theorem mem_keys_eraseKey {α : Type} {m : List (String × α)} {k x : String}
    (h : (m.map Prod.fst).Nodup) :
    (x ∈ (eraseKey m k).map Prod.fst ↔ x ∈ m.map Prod.fst ∧ x ≠ k) := by
  induction m with
  | nil => simp [eraseKey]
  | cons p rest ih =>
    obtain ⟨k1, w⟩ := p
    simp only [List.map_cons, List.nodup_cons] at h
    by_cases hk : k1 = k
    · subst hk
      rw [eraseKey_cons_self]
      simp only [List.map_cons, List.mem_cons]
      constructor
      · intro hx
        refine ⟨Or.inr hx, ?_⟩
        intro he
        exact h.1 (he ▸ hx)
      · rintro ⟨hx | hx, hne⟩
        · exact absurd hx hne
        · exact hx
    · rw [eraseKey_cons_ne hk]
      simp only [List.map_cons, List.mem_cons]
      rw [ih h.2]
      constructor
      · rintro (hx | ⟨hx, hne⟩)
        · subst hx
          exact ⟨Or.inl rfl, fun hh => hk hh⟩
        · exact ⟨Or.inr hx, hne⟩
      · rintro ⟨hx | hx, hne⟩
        · exact Or.inl hx
        · exact Or.inr ⟨hx, hne⟩

theorem mem_keys_eraseKeys {x : String} :
    ∀ (names : List String) (m : List (String × Resource)),
    (m.map Prod.fst).Nodup →
    (x ∈ (eraseKeys m names).map Prod.fst ↔ x ∈ m.map Prod.fst ∧ x ∉ names) := by
  intro names
  induction names with
  | nil =>
    intro m _
    simp [eraseKeys]
  | cons n rest ih =>
    intro m hnd
    simp only [eraseKeys]
    rw [ih _ (keys_eraseKey_nodup hnd), mem_keys_eraseKey hnd]
    simp only [List.mem_cons, not_or]
    tauto

theorem mem_keys_insertKey {α : Type} {m : List (String × α)} {k x : String} {v : α} :
    x ∈ (insertKey m k v).map Prod.fst ↔ x ∈ m.map Prod.fst ∨ x = k := by
  induction m with
  | nil => simp [insertKey]
  | cons p rest ih =>
    obtain ⟨k1, w⟩ := p
    by_cases hk : k1 = k
    · subst hk
      rw [insertKey_cons_self]
      simp only [List.map_cons, List.mem_cons]
      tauto
    · rw [insertKey_cons_ne hk]
      simp only [List.map_cons, List.mem_cons]
      rw [ih]
      tauto

theorem keys_insertKey_nodup {α : Type} {m : List (String × α)} {k : String} {v : α}
    (h : (m.map Prod.fst).Nodup) : ((insertKey m k v).map Prod.fst).Nodup := by
  induction m with
  | nil => simp [insertKey]
  | cons p rest ih =>
    obtain ⟨k1, w⟩ := p
    simp only [List.map_cons, List.nodup_cons] at h
    by_cases hk : k1 = k
    · subst hk
      rw [insertKey_cons_self]
      simp only [List.map_cons, List.nodup_cons]
      exact h
    · rw [insertKey_cons_ne hk]
      simp only [List.map_cons, List.nodup_cons]
      refine ⟨?_, ih h.2⟩
      rw [mem_keys_insertKey]
      rintro (hx | hx)
      · exact h.1 hx
      · exact hk hx

theorem insertKey_of_not_mem {α : Type} {m : List (String × α)} {k : String} {v : α}
    (h : k ∉ m.map Prod.fst) : insertKey m k v = m ++ [(k, v)] := by
  induction m with
  | nil => rfl
  | cons p rest ih =>
    obtain ⟨k1, w⟩ := p
    simp only [List.map_cons, List.mem_cons, not_or] at h
    rw [insertKey_cons_ne (fun hh => h.1 hh.symm), ih h.2]
    rfl

theorem insertKey_idem {α : Type} (m : List (String × α)) (k : String) (v : α) :
    insertKey (insertKey m k v) k v = insertKey m k v := by
  induction m with
  | nil => simp [insertKey]
  | cons p rest ih =>
    obtain ⟨k1, w⟩ := p
    by_cases hk : k1 = k
    · subst hk
      rw [insertKey_cons_self, insertKey_cons_self]
    · rw [insertKey_cons_ne hk, insertKey_cons_ne hk, ih]

/-! ### Utility lemmas about the embedded operations -/

theorem resourceName_eq_ok {r : Resource} (h : resourceName r ≠ NameResult.panics) :
    resourceName r = NameResult.ok (nameStr r) := by
  unfold nameStr
  cases hr : resourceName r with
  | ok s => rfl
  | panics => exact absurd hr h

theorem notify_of_ne_nil {st : ManagerState} {changed : List String} (h : changed ≠ []) :
    notify st changed =
      ⟨{ st with version := st.version + 1 }, some changed.dedup⟩ := by
  unfold notify
  rw [if_neg (by simpa [Nat.lt_one_iff, List.length_eq_zero] using h)]

theorem Msnapshot_ok_version {st : ManagerState} {want anys names : List String}
    {v : String} (h : Msnapshot st want = SnapResult.ok anys names v) :
    v = versionString st := by
  unfold Msnapshot at h
  cases hr : (if want.length = 0 then marshalEntries st.resources else snapshotWantLoop st want) with
  | error e =>
    rw [hr] at h
    cases h
  | ok pr =>
    obtain ⟨a, b⟩ := pr
    rw [hr] at h
    cases h
    rfl

theorem applyAdds_version : ∀ (rs : List Resource) (st : ManagerState),
    (applyAdds st rs).version = st.version := by
  intro rs
  induction rs with
  | nil => intro st; rfl
  | cons r rest ih => intro st; exact ih _

theorem applyAdds_sessions : ∀ (rs : List Resource) (st : ManagerState),
    (applyAdds st rs).sessions = st.sessions := by
  intro rs
  induction rs with
  | nil => intro st; rfl
  | cons r rest ih => intro st; exact ih _

theorem addLoop_error : ∀ (rs1 : List Resource) (st : ManagerState) (changed : List String)
    (r : Resource) (rs2 : List Resource) (n msg : String),
    (∀ r2 ∈ rs1, r2.validateErr = none) →
    (∀ r2 ∈ rs1, resourceName r2 ≠ NameResult.panics) →
    resourceName r = NameResult.ok n → r.validateErr = some msg →
    addLoop st (rs1 ++ r :: rs2) changed = MutResult.error (applyAdds st rs1) n msg := by
  intro rs1
  induction rs1 with
  | nil =>
    intro st changed r rs2 n msg _ _ hn hv
    simp [addLoop, applyAdds, hn, hv]
  | cons r2 rest ih =>
    intro st changed r rs2 n msg hval hnames hn hv
    have hn2 : resourceName r2 = NameResult.ok (nameStr r2) :=
      resourceName_eq_ok (hnames r2 (List.mem_cons_self _ _))
    have hv2 : r2.validateErr = none := hval r2 (List.mem_cons_self _ _)
    simp only [List.cons_append, addLoop, hn2, hv2]
    rw [show applyAdds st (r2 :: rest) =
          applyAdds { st with resources := insertKey st.resources (nameStr r2) r2 } rest from rfl]
    exact ih _ _ r rs2 n msg (fun x hx => hval x (List.mem_cons_of_mem _ hx))
      (fun x hx => hnames x (List.mem_cons_of_mem _ hx)) hn hv

/-! ### Claim theorems -/

/-- C1, counterexample.  The claim says that when validation of any resource
in the batch fails, `Add` leaves the resource map exactly as it was before
the call.  On the concrete batch `[rA, rBad]` against an empty store, the
valid `rA` is stored before `rBad`'s validation fails: `Add` returns the
validation error but the map now holds the entry `("a", rA)` where it held
nothing. -/
theorem c1_counterexample :
    Madd st0 [rA, rBad] =
      MutResult.error
        { versionPfx := "v", typeUrl := "T", version := 0,
          resources := [("a", rA)], sessions := [] } "b" "invalid" ∧
    st0.resources = [] := by
  constructor
  · rfl
  · rfl

/-- C1, amended.  When validation of a resource in the batch fails, `Add`
returns an error naming that resource, publishes no notification (the
`error` result carries none by construction) and leaves the version counter
and the session set unchanged — but the resources preceding the failing one
in the batch have already been stored (`applyAdds` of the prefix), so the
resource map is not, in general, what it was before the call. -/
theorem c1_amended (st : ManagerState) (rs1 : List Resource) (r : Resource)
    (rs2 : List Resource) (n msg : String)
    (hval : ∀ r2 ∈ rs1, r2.validateErr = none)
    (hnames : ∀ r2 ∈ rs1, resourceName r2 ≠ NameResult.panics)
    (hn : resourceName r = NameResult.ok n) (hv : r.validateErr = some msg) :
    Madd st (rs1 ++ r :: rs2) = MutResult.error (applyAdds st rs1) n msg ∧
    (applyAdds st rs1).version = st.version ∧
    (applyAdds st rs1).sessions = st.sessions :=
  ⟨addLoop_error rs1 st [] r rs2 n msg hval hnames hn hv,
   applyAdds_version rs1 st, applyAdds_sessions rs1 st⟩

/-- C1, witness: the amended statement at the concrete batch `[rA, rBad]`
against the fresh manager `st0`. -/
theorem c1_witness :
    Madd st0 [rA, rBad] = MutResult.error (applyAdds st0 [rA]) "b" "invalid" ∧
    (applyAdds st0 [rA]).version = st0.version ∧
    (applyAdds st0 [rA]).sessions = st0.sessions :=
  c1_amended st0 [rA] rBad [] "b" "invalid" (by decide) (by decide) (by decide) (by decide)

/-- C2, counterexample.  The claim says that a resource whose payload
yields neither a non-empty primary name nor a non-empty fallback
cluster-name fails name extraction with an `InvalidResource` error rather
than panicking.  In the source, `resourceName` panics when neither accessor
interface is implemented (first conjunct), and when the primary accessor
returns the empty string the empty name is accepted as-is — no error, and
no fallback to the non-empty cluster-name (second conjunct). -/
theorem c2_counterexample :
    resourceName
      { getName := none, getClusterName := none, validateErr := none, marshal := none } =
      NameResult.panics ∧
    resourceName
      { getName := some "", getClusterName := some "cn", validateErr := none, marshal := none } =
      NameResult.ok "" := by
  constructor
  · rfl
  · rfl

/-- C2, amended.  Name extraction is a total deterministic function into
`NameResult`, but its failure mode is a panic, not an error: it panics
exactly when the resource implements neither accessor, and whenever the
primary accessor is implemented its result — even the empty string — is
returned with no emptiness check and no fallback. -/
theorem c2_amended (r : Resource) :
    (resourceName r = NameResult.panics ↔ r.getName = none ∧ r.getClusterName = none) ∧
    (∀ n, r.getName = some n → resourceName r = NameResult.ok n) := by
  obtain ⟨gn, gc, ve, ma⟩ := r
  constructor
  · cases gn with
    | some n => simp [resourceName]
    | none =>
      cases gc with
      | some n => simp [resourceName]
      | none => simp [resourceName]
  · intro n hn
    cases gn with
    | some n2 =>
      cases hn
      rfl
    | none => cases hn

theorem handleRequest_eq_failPre {m : ManagerState} {s : StreamState}
    {req : DiscoveryRequest} {env : PushEnv} (h : s.node ≠ "")
    (he : s.resources ≠ req.resourceNames) :
    handleRequest m s req env = StepResult.failedPrecondition := by
  unfold handleRequest
  simp only [if_neg h]
  rw [if_neg he]

theorem handleRequest_ne_failPre {m : ManagerState} {s : StreamState}
    {req : DiscoveryRequest} {env : PushEnv} (h : s.node ≠ "")
    (he : s.resources = req.resourceNames) :
    handleRequest m s req env ≠ StepResult.failedPrecondition := by
  unfold handleRequest
  simp only [if_neg h]
  rw [if_pos he]
  by_cases ht : req.typeUrl = m.typeUrl
  · rw [if_pos ht]
    cases hl : lookupKey s.txs req.responseNonce with
    | some t =>
      simp only [hl]
      intro hq
      cases hq
    | none =>
      simp only [hl]
      intro hq
      cases hq
  · rw [if_neg ht]
    intro hq
    cases hq

/-- C3, counterexample.  The claim says the inbound request's
`resource_names` is compared to the latched subscription set
order-independently, so a permutation of the latched set is accepted.  On a
stream latched to `[a, b]`, a request carrying the permutation `[b, a]`
terminates the stream with `FailedPrecondition`: the source compares with
`cmp.Diff` on string slices, which is order-sensitive. -/
theorem c3_counterexample :
    List.Perm ["b", "a"] ["a", "b"] ∧
    handleRequest st0 sSub reqPerm envFail = StepResult.failedPrecondition := by
  constructor
  · decide
  · rfl

/-- C3, amended.  Once the stream has latched a node (the `Subscribed`
state), a request fails the stream with `FailedPrecondition` exactly when
its `resource_names` differs from the latched subscription as a *list* —
an order-sensitive (and multiplicity-sensitive) comparison, under which a
permutation of the latched set also terminates the stream; only a request
repeating the latched list verbatim is accepted. -/
theorem c3_amended (m : ManagerState) (s : StreamState) (req : DiscoveryRequest)
    (env : PushEnv) (h : s.node ≠ "") :
    (handleRequest m s req env = StepResult.failedPrecondition ↔
      req.resourceNames ≠ s.resources) := by
  constructor
  · intro hq hh
    exact handleRequest_ne_failPre h hh.symm hq
  · intro hq
    exact handleRequest_eq_failPre h (fun hh => hq hh.symm)

/-- C3, witness: the amended statement at the concrete subscribed stream
`sSub` (latched to `[a, b]`) and the permuted request `reqPerm`. -/
theorem c3_witness :
    handleRequest st0 sSub reqPerm envFail = StepResult.failedPrecondition ↔
      reqPerm.resourceNames ≠ sSub.resources :=
  c3_amended st0 sSub reqPerm envFail (by decide)

/-- C6, theorem.  `Delete` on an absent name is a no-op: the state (map,
version counter, sessions) is returned unchanged and no notification is
published.  On a present name, `Delete` removes exactly that entry (the
lookup of the deleted name becomes `none`, every other name's lookup is
untouched), bumps the version, leaves the sessions unchanged (all visible
in the returned record) and publishes one notification whose changed-name
set is exactly `{n}`. -/
theorem c6_theorem (st : ManagerState) (n : String)
    (hnd : (st.resources.map Prod.fst).Nodup) :
    (lookupKey st.resources n = none → Mdelete st n = ⟨st, none⟩) ∧
    (∀ r, lookupKey st.resources n = some r →
      Mdelete st n =
        ⟨{ st with resources := eraseKey st.resources n, version := st.version + 1 },
         some [n]⟩ ∧
      lookupKey (eraseKey st.resources n) n = none ∧
      (∀ k, k ≠ n → lookupKey (eraseKey st.resources n) k = lookupKey st.resources k)) := by
  constructor
  · intro h
    unfold Mdelete
    rw [h]
    rfl
  · intro r h
    refine ⟨?_, lookupKey_eraseKey_self hnd, fun k hk => lookupKey_eraseKey_ne hk⟩
    unfold Mdelete
    rw [h]
    simp only [Option.isSome_some, if_true]
    rw [notify_of_ne_nil (List.cons_ne_nil n [])]
    rw [List.dedup_cons_of_not_mem (by simp), List.dedup_nil]

/-- C6, witness: the theorem at the concrete manager `stW` and the present
name `a` (the absent-name arm is instantiated vacuously alongside). -/
theorem c6_witness :
    (lookupKey stW.resources "a" = none → Mdelete stW "a" = ⟨stW, none⟩) ∧
    (∀ r, lookupKey stW.resources "a" = some r →
      Mdelete stW "a" =
        ⟨{ stW with resources := eraseKey stW.resources "a", version := stW.version + 1 },
         some ["a"]⟩ ∧
      lookupKey (eraseKey stW.resources "a") "a" = none ∧
      (∀ k, k ≠ "a" → lookupKey (eraseKey stW.resources "a") k = lookupKey stW.resources k)) :=
  c6_theorem stW "a" (by decide)

theorem snapshotWantLoop_ok (st : ManagerState)
    (hm : ∀ p ∈ st.resources, (p.2).marshal ≠ none) :
    ∀ want : List String,
    snapshotWantLoop st want =
      Except.ok
        (want.filterMap (fun name => (lookupKey st.resources name).bind Resource.marshal),
         want.filter (fun name => (lookupKey st.resources name).isSome)) := by
  intro want
  induction want with
  | nil => rfl
  | cons name rest ih =>
    cases hl : lookupKey st.resources name with
    | none =>
      simp only [snapshotWantLoop, hl, ih, List.filterMap_cons, List.filter_cons,
        Option.none_bind, Option.isSome_none, Bool.false_eq_true, if_false]
    | some r =>
      have hmar : r.marshal ≠ none := hm (name, r) (lookupKey_mem hl)
      cases hma : r.marshal with
      | none => exact absurd hma hmar
      | some a =>
        simp only [snapshotWantLoop, hl, hma, ih, List.filterMap_cons, List.filter_cons,
          Option.some_bind, Option.isSome_some, if_true]

/-- C7, theorem.  For a non-empty `want`, `snapshot` returns exactly the
wanted resources that are present in the store, in the order of `want`
(`filterMap` of the lookup), silently omitting each absent name (visible in
the `filter` of the kept names); an absent name never produces an error —
the only error path is a marshal failure of a *present* resource, excluded
here by hypothesis. -/
theorem c7_theorem (st : ManagerState) (want : List String)
    (hne : want ≠ [])
    (hm : ∀ p ∈ st.resources, (p.2).marshal ≠ none) :
    Msnapshot st want =
      SnapResult.ok
        (want.filterMap (fun name => (lookupKey st.resources name).bind Resource.marshal))
        (want.filter (fun name => (lookupKey st.resources name).isSome))
        (versionString st) := by
  unfold Msnapshot
  rw [if_neg (by simpa [List.length_eq_zero] using hne), snapshotWantLoop_ok st hm want]

/-- C7, witness: the theorem at the concrete manager `stW` and the request
`[a, zz]`, whose second name is absent from the store. -/
theorem c7_witness :
    Msnapshot stW ["a", "zz"] =
      SnapResult.ok
        (["a", "zz"].filterMap (fun name => (lookupKey stW.resources name).bind Resource.marshal))
        (["a", "zz"].filter (fun name => (lookupKey stW.resources name).isSome))
        (versionString stW) :=
  c7_theorem stW ["a", "zz"] (by decide) (by decide)

/-- C8, theorem.  Adding one valid resource twice from any starting state:
both calls succeed, the second call's resource map equals the first call's
(`insertKey` is idempotent, shown by the identical `resources` field in
both result records) and the version counter advances by one on each call,
ending at the starting counter plus two.  Each call publishes the
notification `{n}`. -/
theorem c8_theorem (st : ManagerState) (r : Resource) (n : String)
    (hn : resourceName r = NameResult.ok n) (hv : r.validateErr = none) :
    Madd st [r] =
      MutResult.ok
        ⟨{ st with resources := insertKey st.resources n r, version := st.version + 1 },
         some [n]⟩ ∧
    Madd { st with resources := insertKey st.resources n r, version := st.version + 1 } [r] =
      MutResult.ok
        ⟨{ st with resources := insertKey st.resources n r, version := st.version + 2 },
         some [n]⟩ := by
  have key : ∀ st2 : ManagerState,
      Madd st2 [r] =
        MutResult.ok
          ⟨{ st2 with resources := insertKey st2.resources n r, version := st2.version + 1 },
           some [n]⟩ := by
    intro st2
    show addLoop st2 [r] [] = _
    simp only [addLoop, hn, hv, List.nil_append]
    rw [notify_of_ne_nil (List.cons_ne_nil n [])]
    rw [List.dedup_cons_of_not_mem (by simp), List.dedup_nil]
  refine ⟨key st, ?_⟩
  have h2 := key { st with resources := insertKey st.resources n r, version := st.version + 1 }
  simpa [insertKey_idem] using h2

/-- C8, witness: the theorem at the concrete manager `stW` and the valid
resource `rA` named `a`. -/
theorem c8_witness :
    Madd stW [rA] =
      MutResult.ok
        ⟨{ stW with resources := insertKey stW.resources "a" rA, version := stW.version + 1 },
         some ["a"]⟩ ∧
    Madd { stW with resources := insertKey stW.resources "a" rA, version := stW.version + 1 } [rA] =
      MutResult.ok
        ⟨{ stW with resources := insertKey stW.resources "a" rA, version := stW.version + 2 },
         some ["a"]⟩ :=
  c8_theorem stW rA "a" (by decide) (by decide)

/-- C9, counterexample.  The claim says every nonce suffix is 8 characters,
each in `a..z`, *including when the random source fails*.  Under the
`io.ReadFull` contract of `crypto/rand.Read`, a read may write part of the
buffer and then report an error; the source then skips the
letter-mapping loop and returns the buffer as-is.  With one written byte
`0` the suffix is `[0, x, x, x, x, x, x, x]`, and the byte `0` is not a
lowercase letter (`0 < 97 = a`). -/
theorem c9_counterexample :
    randomBytes { bytes := [0], err := true } = [0, 120, 120, 120, 120, 120, 120, 120] ∧
    (0 : Nat) ∈ randomBytes { bytes := [0], err := true } ∧ ¬ (97 : Nat) ≤ 0 := by
  decide

/-- C9, amended.  The version string published to clients is exactly the
version-prefix concatenated with the counter in decimal, and every built
response carries that version string and a nonce of the form
`nonce-<version>-<suffix>` where the suffix always has 8 bytes; every
suffix byte is a lowercase letter (`a..z`) whenever the random read either
fully succeeds or fails without writing any bytes — but not, in general,
after a partial failed read, which leaves its raw bytes in the suffix. -/
theorem c9_amended (st : ManagerState) (rr : RandRead) :
    versionString st = st.versionPfx ++ toString st.version ∧
    (randomBytes rr).length = 8 ∧
    ((rr.err = false ∧ 8 ≤ rr.bytes.length) ∨ rr.bytes = [] →
      ∀ b ∈ randomBytes rr, 97 ≤ b ∧ b ≤ 122) ∧
    (∀ subscribed res names,
      buildDiscoveryResponse st subscribed rr = BuildResult.ok res names →
      res.versionInfo = versionString st ∧
      res.nonce = "nonce-" ++ versionString st ++ "-" ++ randomString rr) := by
  refine ⟨rfl, ?_, ?_, ?_⟩
  · unfold randomBytes
    by_cases hc : 8 ≤ rr.bytes.length ∧ rr.err = false
    · rw [if_pos hc]
      simp only [List.length_map, List.length_append, List.length_take, List.length_replicate]
      omega
    · rw [if_neg hc]
      simp only [List.length_append, List.length_take, List.length_replicate]
      omega
  · rintro (⟨herr, hlen⟩ | hnil) b hb
    · unfold randomBytes at hb
      rw [if_pos ⟨hlen, herr⟩] at hb
      simp only [List.mem_map] at hb
      obtain ⟨c, _, hc⟩ := hb
      have hm : c % 26 < 26 := Nat.mod_lt _ (by omega)
      omega
    · unfold randomBytes at hb
      rw [hnil] at hb
      rw [if_neg (by simp)] at hb
      simp only [List.take_nil, List.nil_append, List.mem_replicate] at hb
      omega
  · intro subscribed res names hb
    unfold buildDiscoveryResponse at hb
    cases hs : Msnapshot st subscribed with
    | error e =>
      rw [hs] at hb
      cases hb
    | ok anys nm v =>
      rw [hs] at hb
      cases hb
      have hv := Msnapshot_ok_version hs
      subst hv
      exact ⟨rfl, rfl⟩

theorem latch_txs (s : StreamState) (req : DiscoveryRequest) :
    (if s.node = "" then { s with node := req.nodeId, resources := req.resourceNames }
     else s).txs = s.txs := by
  split
  · rfl
  · rfl

theorem sendUpdate_keys_nodup {m : ManagerState} {s : StreamState} {env : PushEnv}
    (h : (s.txs.map Prod.fst).Nodup) :
    (((sendUpdate m s env).1).txs.map Prod.fst).Nodup := by
  unfold sendUpdate
  cases hb : buildDiscoveryResponse m s.resources env.rr with
  | error e => exact h
  | ok res names =>
    cases hs : env.sendOk with
    | false =>
      simp only [Bool.false_eq_true, if_false]
      exact h
    | true =>
      simp only [if_true]
      exact keys_insertKey_nodup h

theorem handleNotification_keys_nodup {m : ManagerState} {s : StreamState}
    {changed : List String} {env : PushEnv} (h : (s.txs.map Prod.fst).Nodup) :
    (((handleNotification m s changed env).1).txs.map Prod.fst).Nodup := by
  simp only [handleNotification]
  cases hc : (decide (s.resources.length = 0) || s.resources.any fun name => changed.contains name) with
  | true =>
    simp only [if_true]
    exact sendUpdate_keys_nodup h
  | false =>
    simp only [Bool.false_eq_true, if_false]
    exact h

theorem handleCleanup_keys_nodup {s : StreamState} {now : Nat}
    (h : (s.txs.map Prod.fst).Nodup) :
    ((handleCleanup s now).txs.map Prod.fst).Nodup :=
  h.sublist ((List.filter_sublist _).map Prod.fst)

/-- C4, counterexample.  The claim says every newly emitted response
carries a nonce different from every live (unretired) transaction's nonce.
In the concrete trace below the random read fails twice (the deterministic
`xxxxxxxx` fallback) and the manager version does not move, so the second
push — triggered by a request with an unknown nonce — emits a response
whose nonce equals the nonce of the still-live transaction recorded by the
first push; the transaction map silently overwrites the old entry. -/
theorem c4_counterexample :
    handleRequest st0 initStreamState reqInit envFail =
      StepResult.cont c4s1 (some c4res) none ∧
    handleRequest st0 c4s1 reqUnknown envFail =
      StepResult.cont c4s1 (some c4res) none ∧
    lookupKey c4s1.txs c4res.nonce = some c4tx := by
  decide

/-- C4, amended.  What the transaction bookkeeping does guarantee: the
transactions are kept in a map keyed by nonce, so at every point in a
stream's execution the nonces of the live transactions are pairwise
distinct — every driver-loop step preserves distinctness of the keys of
`txs` (a fresh push whose nonce collides with a live transaction does not
create a duplicate: it silently replaces the live entry).  The claim's
second half — that a newly emitted response's nonce differs from every
live transaction's — is refuted by the counterexample. -/
theorem c4_amended (m : ManagerState) (s : StreamState) (e : StreamEvent)
    (s2 : StreamState) (sent : Option DiscoveryResponse) (ev : Option Acknowledgment)
    (hnd : (s.txs.map Prod.fst).Nodup)
    (hstep : streamStep m s e = StepResult.cont s2 sent ev) :
    (s2.txs.map Prod.fst).Nodup := by
  cases e with
  | cleanup now =>
    cases hstep
    exact handleCleanup_keys_nodup hnd
  | notification changed env =>
    cases hstep
    exact handleNotification_keys_nodup hnd
  | request req env =>
    simp only [streamStep, handleRequest] at hstep
    have hnd1 :
        (((if s.node = "" then { s with node := req.nodeId, resources := req.resourceNames }
           else s) : StreamState).txs.map Prod.fst).Nodup := by
      rw [latch_txs]
      exact hnd
    set s1 := (if s.node = "" then { s with node := req.nodeId, resources := req.resourceNames }
      else s : StreamState) with hs1
    by_cases he : s1.resources = req.resourceNames
    · rw [if_pos he] at hstep
      by_cases ht : req.typeUrl = m.typeUrl
      · rw [if_pos ht] at hstep
        cases hl : lookupKey s1.txs req.responseNonce with
        | some t =>
          rw [hl] at hstep
          cases hstep
          exact keys_eraseKey_nodup hnd1
        | none =>
          rw [hl] at hstep
          cases hstep
          exact sendUpdate_keys_nodup hnd1
      · rw [if_neg ht] at hstep
        cases hstep
    · rw [if_neg he] at hstep
      cases hstep

/-- C4, witness: the amended step-invariant applied to the concrete first
step of the counterexample trace — the push that records the transaction
under `c4nonce` keeps the transaction-map keys duplicate-free. -/
theorem c4_witness : ((c4s1.txs).map Prod.fst).Nodup :=
  c4_amended st0 initStreamState (StreamEvent.request reqInit envFail) c4s1 (some c4res)
    none (by decide) (by decide)

theorem validateAll_ok : ∀ rs : List Resource,
    (∀ r ∈ rs, r.validateErr = none) → validateAll rs = ValResult.ok := by
  intro rs
  induction rs with
  | nil => intro _; rfl
  | cons r rest ih =>
    intro h
    have hv : r.validateErr = none := h r (List.mem_cons_self _ _)
    simp only [validateAll, hv]
    exact ih (fun x hx => h x (List.mem_cons_of_mem _ hx))

theorem validateAll_error : ∀ (rs1 : List Resource) (r : Resource) (rs2 : List Resource)
    (n msg : String),
    (∀ r2 ∈ rs1, r2.validateErr = none) →
    resourceName r = NameResult.ok n → r.validateErr = some msg →
    validateAll (rs1 ++ r :: rs2) = ValResult.error n msg := by
  intro rs1
  induction rs1 with
  | nil =>
    intro r rs2 n msg _ hn hv
    simp [validateAll, hn, hv]
  | cons r2 rest ih =>
    intro r rs2 n msg hval hn hv
    have hv2 : r2.validateErr = none := hval r2 (List.mem_cons_self _ _)
    simp only [List.cons_append, validateAll, hv2]
    exact ih r rs2 n msg (fun x hx => hval x (List.mem_cons_of_mem _ hx)) hn hv

theorem replaceLoop_eq : ∀ (rs : List Resource) (st : ManagerState)
    (old acc : List (String × Resource)) (changed : List String),
    (∀ r ∈ rs, resourceName r ≠ NameResult.panics) →
    ((rs.map nameStr).Nodup) →
    (∀ r ∈ rs, nameStr r ∉ acc.map Prod.fst) →
    replaceLoop st old acc rs changed =
      MutResult.ok
        (notify { st with resources := acc ++ rs.map (fun r => (nameStr r, r)) }
          (changed ++ rs.map nameStr ++ (eraseKeys old (rs.map nameStr)).map Prod.fst)) := by
  intro rs
  induction rs with
  | nil =>
    intro st old acc changed _ _ _
    simp [replaceLoop, eraseKeys]
  | cons r rest ih =>
    intro st old acc changed hname hnd hfresh
    have hn : resourceName r = NameResult.ok (nameStr r) :=
      resourceName_eq_ok (hname r (List.mem_cons_self _ _))
    simp only [replaceLoop, hn]
    have holdNext :
        (if (lookupKey old (nameStr r)).isSome then eraseKey old (nameStr r) else old) =
          eraseKey old (nameStr r) := by
      cases hl : lookupKey old (nameStr r) with
      | some v => simp
      | none => simp [eraseKey_of_lookup_none hl]
    rw [holdNext, insertKey_of_not_mem (hfresh r (List.mem_cons_self _ _))]
    simp only [List.map_cons, List.nodup_cons] at hnd
    have hfresh2 : ∀ r2 ∈ rest, nameStr r2 ∉ ((acc ++ [(nameStr r, r)]).map Prod.fst) := by
      intro r2 hr2
      rw [List.map_append, List.mem_append]
      rintro (hx | hx)
      · exact hfresh r2 (List.mem_cons_of_mem _ hr2) hx
      · simp only [List.map_cons, List.map_nil, List.mem_singleton] at hx
        exact hnd.1 (hx ▸ List.mem_map_of_mem nameStr hr2)
    rw [ih st (eraseKey old (nameStr r)) (acc ++ [(nameStr r, r)]) (changed ++ [nameStr r])
      (fun x hx => hname x (List.mem_cons_of_mem _ hx)) hnd.2 hfresh2]
    simp only [List.map_cons, eraseKeys, List.append_assoc, List.singleton_append,
      List.cons_append, List.nil_append]

theorem map_snd_map_pair (rs : List Resource) :
    ((rs.map (fun r => (nameStr r, r))).map Prod.snd) = rs := by
  induction rs with
  | nil => rfl
  | cons a t ih => simp only [List.map_cons, ih]

/-- C5, theorem.  `Replace`: (first conjunct) when a resource of `rs` fails
validation — `r` being the first failure — `Replace` returns that error
with the store completely untouched (validation runs before any mutation);
(second conjunct) when every resource validates, the store afterwards is
exactly `rs` keyed by name, the version is bumped once, one notification is
published whose changed-name set is precisely the union of the names of
`rs` (the added and updated entries) and the previously stored names (which
covers the removed ones), and `List()` then yields a permutation of `rs`
sorted by name ascending. -/
theorem c5_theorem (st : ManagerState) (rs : List Resource) :
    (∀ rs1 r rs2 n msg, rs = rs1 ++ r :: rs2 →
      (∀ r2 ∈ rs1, r2.validateErr = none) →
      resourceName r = NameResult.ok n → r.validateErr = some msg →
      Mreplace st rs = MutResult.error st n msg) ∧
    ((∀ r ∈ rs, r.validateErr = none) →
     (∀ r ∈ rs, resourceName r ≠ NameResult.panics) →
     ((rs.map nameStr).Nodup) →
     ((st.resources.map Prod.fst).Nodup) →
     (rs ≠ [] ∨ st.resources ≠ []) →
     ∃ u,
       Mreplace st rs =
         MutResult.ok
           ⟨{ st with
              resources := rs.map (fun r => (nameStr r, r)),
              version := st.version + 1 }, some u⟩ ∧
       (∀ x, x ∈ u ↔ x ∈ rs.map nameStr ∨ x ∈ st.resources.map Prod.fst) ∧
       ∃ l, Mlist { st with
              resources := rs.map (fun r => (nameStr r, r)),
              version := st.version + 1 } = some l ∧
         l.Perm rs ∧ List.Sorted (fun a b : String => a ≤ b) (l.map nameStr)) := by
  constructor
  · intro rs1 r rs2 n msg hsplit hval hn hv
    subst hsplit
    unfold Mreplace
    rw [validateAll_error rs1 r rs2 n msg hval hn hv]
  · intro hval hname hnd hndold hne
    unfold Mreplace
    rw [validateAll_ok rs hval]
    rw [replaceLoop_eq rs st st.resources [] [] hname hnd (by simp)]
    have hchanged :
        ([] : List String) ++ rs.map nameStr ++
          (eraseKeys st.resources (rs.map nameStr)).map Prod.fst ≠ [] := by
      intro hc
      rw [List.nil_append] at hc
      obtain ⟨h1, h2⟩ := List.append_eq_nil.mp hc
      rcases hne with h | h
      · exact h (List.map_eq_nil_iff.mp h1)
      · have hrs : rs = [] := List.map_eq_nil_iff.mp h1
        rw [hrs] at h2
        exact h (List.map_eq_nil_iff.mp h2)
    rw [notify_of_ne_nil hchanged]
    refine ⟨_, rfl, ?_, ?_⟩
    · intro x
      rw [List.mem_dedup, List.nil_append, List.mem_append,
        mem_keys_eraseKeys (rs.map nameStr) st.resources hndold]
      constructor
      · rintro (h | ⟨h, _⟩)
        · exact Or.inl h
        · exact Or.inr h
      · rintro (h | h)
        · exact Or.inl h
        · by_cases hx : x ∈ rs.map nameStr
          · exact Or.inl hx
          · exact Or.inr ⟨h, hx⟩
    · have hall : ((rs.map (fun r => (nameStr r, r))).all (fun p =>
          match resourceName p.2 with
          | NameResult.ok _ => true
          | NameResult.panics => false)) = true := by
        rw [List.all_eq_true]
        intro p hp
        rw [List.mem_map] at hp
        obtain ⟨r, hr, hpr⟩ := hp
        rw [← hpr]
        simp only [resourceName_eq_ok (hname r hr)]
      have hmap : ((rs.map (fun r => (nameStr r, r))).map Prod.snd) = rs :=
        map_snd_map_pair rs
      unfold Mlist
      simp only [hall, if_true, hmap]
      haveI hto : IsTotal Resource (fun a b => nameStr a ≤ nameStr b) :=
        ⟨fun a b => le_total _ _⟩
      haveI htr : IsTrans Resource (fun a b => nameStr a ≤ nameStr b) :=
        ⟨fun a b c hab hbc => le_trans hab hbc⟩
      refine ⟨_, rfl, List.perm_insertionSort _ rs, ?_⟩
      have hsor := List.sorted_insertionSort (fun a b => nameStr a ≤ nameStr b) rs
      exact List.Pairwise.map nameStr (fun a b h => h) hsor

theorem sendUpdate_node (m : ManagerState) (s : StreamState) (env : PushEnv) :
    ((sendUpdate m s env).1).node = s.node := by
  unfold sendUpdate
  cases hb : buildDiscoveryResponse m s.resources env.rr with
  | error e => rfl
  | ok res names =>
    cases hs : env.sendOk with
    | false => rfl
    | true => rfl

theorem handleNotification_node (m : ManagerState) (s : StreamState)
    (changed : List String) (env : PushEnv) :
    ((handleNotification m s changed env).1).node = s.node := by
  simp only [handleNotification]
  cases hc : (decide (s.resources.length = 0) || s.resources.any fun name => changed.contains name) with
  | true =>
    simp only [if_true]
    exact sendUpdate_node m s env
  | false => rfl

theorem c10_step (m : ManagerState) (s : StreamState) (e : StreamEvent)
    (hs : s.node = "") (he : eventNode e = "") :
    streamStep m s e = StepResult.invalidArgument ∨
    ∃ s2 sent ev, streamStep m s e = StepResult.cont s2 sent ev ∧ s2.node = "" := by
  cases e with
  | cleanup now =>
    right
    exact ⟨_, _, _, rfl, hs⟩
  | notification changed env =>
    right
    exact ⟨_, _, _, rfl, (handleNotification_node m s changed env).trans hs⟩
  | request req env =>
    have hreq : req.nodeId = "" := he
    simp only [streamStep, handleRequest, hs, if_true, eq_self_iff_true]
    by_cases ht : req.typeUrl = m.typeUrl
    · rw [if_pos ht]
      cases hl : lookupKey s.txs req.responseNonce with
      | some t =>
        right
        simp only [hl]
        exact ⟨_, _, _, rfl, hreq⟩
      | none =>
        right
        simp only [hl]
        refine ⟨_, _, _, rfl, ?_⟩
        rw [sendUpdate_node]
        exact hreq
    · rw [if_neg ht]
      exact Or.inl rfl

/-- C10, theorem.  When every inbound request on a stream carries an empty
node id, the driver keeps `node = ""` and therefore re-latches the
subscription from each request before the immutability comparison, so the
comparison always sees the request's own list and the run can never
terminate with `FailedPrecondition` — with any mix of notifications,
cleanup ticks and manager states in between, and whatever the requests'
resource names are.  (A type-URL mismatch may still end the run with
`InvalidArgument`.)  The immutability check can thus only ever fire after a
request with a non-empty node id has latched the node. -/
theorem c10_theorem (evs : List (ManagerState × StreamEvent)) (s : StreamState)
    (hs : s.node = "") (hreq : ∀ p ∈ evs, eventNode p.2 = "") :
    (runStream s evs = RunResult.failedPrecondition) = False := by
  induction evs generalizing s with
  | nil => simp [runStream]
  | cons p rest ih =>
    obtain ⟨m, e⟩ := p
    have he : eventNode e = "" := hreq _ (List.mem_cons_self _ _)
    rcases c10_step m s e hs he with hinv | ⟨s2, sent, ev, hstep, hnode⟩
    · simp only [runStream, hinv]
      simp
    · simp only [runStream, hstep]
      exact ih s2 hnode (fun q hq => hreq q (List.mem_cons_of_mem _ hq))

/-- C10, witness: the theorem at the concrete schedule `c10evs` — two
requests with empty node ids whose subscription lists differ (`[a]` and
then `[b, c]`) — starting from the initial stream state: the run does not
end in `FailedPrecondition`. -/
theorem c10_witness :
    (runStream initStreamState c10evs = RunResult.failedPrecondition) = False :=
  c10_theorem c10evs initStreamState rfl (by decide)

end Ekglue
